import Mathlib

/-!
Shallow embedding of the resource-identity layer of `src/src/main.rs`
(`ImageCache`, the `mesh_map_gpu_ids` loop, the material rewrite, the frame
loop's error latch, and the mouse input drain) together with proofs of its
specification properties.
-/

namespace Vicki

/-- Modelled from the spec: the 4-byte RGBA placeholder constant (`[u8; 4]`);
the `asset` module carrying the concrete type is not under `src/`. -/
structure Rgba where
  r : Nat
  g : Nat
  b : Nat
  a : Nat
deriving DecidableEq

/-- Model of `init_val.to_vec()`: the 4 bytes of a placeholder constant as a byte vector. -/
def rgba_to_vec (c : Rgba) : List Nat := [c.r, c.g, c.b, c.a]

/-- Modelled from the spec: `RawRgba8Image` (`asset::image`, not under `src/`):
a decoded pixel buffer plus dimensions, as constructed in `main.rs` line 94. -/
structure RawRgba8Image where
  data : List Nat
  dimensions : List Nat
deriving DecidableEq

/-- Modelled from the spec: the mesh material map variant (`asset::mesh`, not under
`src/`): `Asset{path, ...}` — the fields elided by `..` in `load_mesh_map`'s match
are modelled by `params` — or `Placeholder(4-byte RGBA)`. -/
inductive MeshMaterialMap where
  | Asset (path : String) (params : Nat)
  | Placeholder (init_val : Rgba)
deriving DecidableEq

/-- Model of `ImageCacheResponse` (main.rs lines 32-40). -/
inductive ImageCacheResponse where
  | Hit (id : Nat)
  | Miss (id : Nat) (image : RawRgba8Image)
deriving DecidableEq

/-- Model of `CachedImage` (main.rs lines 41-47): the retained lazy handle (modelled by the
request path it was built from) and the logical id. -/
structure CachedImage where
  lazy_handle : String
  id : Nat
deriving DecidableEq

/-- Association-list model of `HashMap` lookup (`contains_key` / indexing). -/
def hashGet? {κ β : Type} [DecidableEq κ] (k : κ) : List (κ × β) → Option β
  | [] => none
  | (k1, b) :: rest => if k = k1 then some b else hashGet? k rest

/-- Association-list model of `HashMap::insert`: the new binding shadows any older
one under `hashGet?`. -/
def hashInsert {κ β : Type} [DecidableEq κ] (k : κ) (b : β) (m : List (κ × β)) :
    List (κ × β) :=
  (k, b) :: m

/-- Model of `ImageCache` (main.rs lines 49-54). The `lazy_cache` field is modelled by the
`loader` oracle threaded through `load_mesh_map`. -/
structure ImageCache where
  loaded_images : List (String × CachedImage)
  placeholder_images : List (Rgba × Nat)
  next_id : Nat
deriving DecidableEq

/-- Model of `ImageCache::new` (main.rs lines 56-64). -/
def ImageCache.new : ImageCache :=
  { loaded_images := [], placeholder_images := [], next_id := 0 }

/-- Value of `usize::MAX` on the 64-bit targets this renderer builds for. -/
def USIZE_MAX : Nat := 2 ^ 64 - 1

/-- Model of `usize::checked_add`. -/
def checked_add (a b : Nat) : Option Nat :=
  if a + b ≤ USIZE_MAX then some (a + b) else none

/-- Outcome of code that may return through the `anyhow::Result` error channel
(`err`) or abort the process (`fatal`: `expect`, `unwrap`, indexing panics). -/
inductive LoadResult (α : Type) where
  | ok (val : α)
  | err (msg : String)
  | fatal (msg : String)
deriving DecidableEq

/-- Modelled from the spec: the Lazy Evaluation Cache boundary
(`smol::block_on(lazy_handle.eval(&self.lazy_cache))`, turbosloth, not under
`src/`): a blocking evaluation yielding the decoded image for a path, or an
error. -/
def Loader : Type := String → Except String RawRgba8Image

/-- Model of `ImageCache::load_mesh_map` (main.rs lines 66-112), with the `&mut self` state
returned explicitly. On `Err` and on the id-overflow panic the state is returned
unchanged, matching the source, where no field is written before the failure
point. -/
def load_mesh_map (loader : Loader) (st : ImageCache) (map : MeshMaterialMap) :
    LoadResult ImageCacheResponse × ImageCache :=
  match map with
  | .Asset path _ =>
    match hashGet? path st.loaded_images with
    | none =>
      match loader path with
      | .error e => (.err e, st)
      | .ok image =>
        let id := st.next_id
        match checked_add st.next_id 1 with
        | none => (.fatal "Ran out of image IDs", st)
        | some n =>
          (.ok (.Miss id image),
           { st with
             loaded_images :=
               hashInsert path { lazy_handle := path, id := id } st.loaded_images,
             next_id := n })
    | some cached => (.ok (.Hit cached.id), st)
  | .Placeholder init_val =>
    match hashGet? init_val st.placeholder_images with
    | none =>
      let image : RawRgba8Image := { data := rgba_to_vec init_val, dimensions := [1, 1] }
      let id := st.next_id
      match checked_add st.next_id 1 with
      | none => (.fatal "Ran out of image IDs", st)
      | some n =>
        (.ok (.Miss id image),
         { st with
           placeholder_images := hashInsert init_val id st.placeholder_images,
           next_id := n })
    | some pid => (.ok (.Hit pid), st)

/-- The deduplication key of a map: the asset path, or the placeholder constant.
The further `Asset` fields are ignored: the cache keys on `path` alone. -/
inductive ResourceKey where
  | assetPath (path : String)
  | placeholderColor (c : Rgba)
deriving DecidableEq

/-- The `ResourceKey` of a material map. -/
def key : MeshMaterialMap → ResourceKey
  | .Asset path _ => .assetPath path
  | .Placeholder c => .placeholderColor c

/-- The logical id the cache currently associates to a key, if any. -/
def idOf (st : ImageCache) : ResourceKey → Option Nat
  | .assetPath p => (hashGet? p st.loaded_images).map CachedImage.id
  | .placeholderColor c => hashGet? c st.placeholder_images

/-- Iterated `load_mesh_map` over a list of maps, stopping at the first failure
(the caller in `try_main` unwraps each response in turn). -/
def runLoads (loader : Loader) :
    List MeshMaterialMap → ImageCache → LoadResult (List ImageCacheResponse) × ImageCache
  | [], st => (.ok [], st)
  | m :: ms, st =>
    match load_mesh_map loader st m with
    | (.ok r, st1) =>
      match runLoads loader ms st1 with
      | (.ok rs, st2) => (.ok (r :: rs), st2)
      | (.err e, st2) => (.err e, st2)
      | (.fatal e, st2) => (.fatal e, st2)
    | (.err e, st1) => (.err e, st1)
    | (.fatal e, st1) => (.fatal e, st1)

/-- Whether a response is a `Miss`. -/
def ImageCacheResponse.is_miss : ImageCacheResponse → Bool
  | .Hit _ => false
  | .Miss _ _ => true

/-- The logical id carried by a response (`Hit` or `Miss`). -/
def ImageCacheResponse.resp_id : ImageCacheResponse → Nat
  | .Hit i => i
  | .Miss i _ => i

/-- The id of a `Miss` response, `none` for a `Hit`. -/
def ImageCacheResponse.miss_id : ImageCacheResponse → Option Nat
  | .Hit _ => none
  | .Miss i _ => some i

/-- Model of `BindlessImageHandle` (render_client): `.0` is its integer payload. -/
structure BindlessImageHandle where
  val : Nat
deriving DecidableEq

/-- Modelled from the spec: `VickiRenderClient::add_image` (render_client module
not under `src/`) registers an image with the renderer and returns an opaque
bindless handle; modelled as a log of registered images, with handles numbered in
registration order. -/
structure RenderClient where
  images : List RawRgba8Image
deriving DecidableEq

/-- Model of `add_image`: register one image, returning a fresh handle and the new client. -/
def add_image (rc : RenderClient) (img : RawRgba8Image) :
    BindlessImageHandle × RenderClient :=
  (⟨rc.images.length⟩, ⟨rc.images ++ [img]⟩)

/-- The `mesh_map_gpu_ids` loop of `try_main` (main.rs lines 166-180): load each
map, `unwrap` the result (process abort on `Err`), on `Hit` index
`cached_image_to_bindless_handle` (abort if absent), on `Miss` call `add_image`
and record the new handle in the table. -/
def mesh_map_gpu_ids (loader : Loader) :
    List MeshMaterialMap → ImageCache → List (Nat × BindlessImageHandle) →
    RenderClient →
    LoadResult (List BindlessImageHandle) × ImageCache ×
      List (Nat × BindlessImageHandle) × RenderClient
  | [], st, table, rc => (.ok [], st, table, rc)
  | m :: ms, st, table, rc =>
    match load_mesh_map loader st m with
    | (.ok (.Hit id), st1) =>
      match hashGet? id table with
      | none => (.fatal "no entry found for key", st1, table, rc)
      | some handle =>
        match mesh_map_gpu_ids loader ms st1 table rc with
        | (.ok hs, st2, t2, rc2) => (.ok (handle :: hs), st2, t2, rc2)
        | other => other
    | (.ok (.Miss id image), st1) =>
      let hrc := add_image rc image
      match mesh_map_gpu_ids loader ms st1 (hashInsert id hrc.1 table) hrc.2 with
      | (.ok hs, st2, t2, rc2) => (.ok (hrc.1 :: hs), st2, t2, rc2)
      | other => other
    | (.err e, st1) => (.fatal e, st1, table, rc)
    | (.fatal e, st1) => (.fatal e, st1, table, rc)

/-- A material: a list of map slots, each a scene-local index before the rewrite
and a handle payload after it (`mat.maps` in main.rs). -/
structure MeshMaterial where
  maps : List Nat
deriving DecidableEq

/-- One material's slots under `*m = mesh_map_gpu_ids[*m as usize].0`
(main.rs line 183); out-of-bounds indexing (a Rust panic) is modelled by `none`. -/
def rewrite_slots (gpu_ids : List BindlessImageHandle) : List Nat → Option (List Nat)
  | [] => some []
  | m :: ms =>
    match gpu_ids.get? m with
    | none => none
    | some h => (rewrite_slots gpu_ids ms).map fun rest => h.val :: rest

/-- The material rewrite loop of `try_main` (main.rs lines 181-185). -/
def rewrite_material_maps (gpu_ids : List BindlessImageHandle) :
    List MeshMaterial → Option (List MeshMaterial)
  | [] => some []
  | mat :: mats =>
    match rewrite_slots gpu_ids mat.maps with
    | none => none
    | some s => (rewrite_material_maps gpu_ids mats).map fun rest => ⟨s⟩ :: rest

/-- One iteration's prepare/draw dispatch (main.rs lines 249-261). Errors are
modelled by their formatted text. Returns whether `draw_frame` ran, the diagnostic
lines printed, and the new `last_error_text` latch. -/
def frame_step (pr : Except String Unit) (last_error_text : Option String) :
    Bool × List String × Option String :=
  match pr with
  | .ok _ => (true, [], none)
  | .error e =>
    let error_text : Option String := some e
    if error_text ≠ last_error_text then (false, [e], error_text)
    else (false, [], last_error_text)

/-- The observable trace of a sequence of frames: per-frame `draw_frame` flags, the
printed diagnostic lines in order, and the final latch. -/
structure FrameTrace where
  draws : List Bool
  lines : List String
  latch : Option String
deriving DecidableEq

/-- Run `frame_step` over a list of per-frame `prepare_frame` results. -/
def run_frames : List (Except String Unit) → Option String → FrameTrace
  | [], latch => ⟨[], [], latch⟩
  | pr :: prs, latch =>
    let step := frame_step pr latch
    let rest := run_frames prs step.2.2
    ⟨step.1 :: rest.draws, step.2.1 ++ rest.lines, rest.latch⟩

/-- Model of `winit::ElementState`. -/
inductive ElementState where
  | Pressed
  | Released
deriving DecidableEq

/-- Model of `winit::MouseButton`; `Other` carries the extra button's code. -/
inductive MouseButton where
  | Left
  | Middle
  | Right
  | Other (code : Nat)
deriving DecidableEq

/-- The `button_id` match of the `MouseInput` arm (main.rs lines 208-213). -/
def mouse_button_id : MouseButton → Nat
  | .Left => 0
  | .Middle => 1
  | .Right => 2
  | .Other _ => 0

/-- Modelled from the spec: `MouseState.button_mask` (input module not under
`src/`) is an unsigned machine-integer bit mask; modelled `u32`-wide. -/
def U32_MASK : Nat := 2 ^ 32 - 1

/-- The mask update of the `MouseInput` arm (main.rs lines 215-219). -/
def apply_mouse_input (state : ElementState) (button : MouseButton)
    (button_mask : Nat) : Nat :=
  match state with
  | .Pressed => button_mask ||| (1 <<< mouse_button_id button)
  | .Released => button_mask &&& (U32_MASK ^^^ (1 <<< mouse_button_id button))

/-! ### Abstract model of the cache used in the proofs

The cache is simulated by a history list of keys in id order: a key's logical id
is its index in the history, and `next_id` is the history's length. -/

/-- Index of the first occurrence of `a` in a list. -/
def idxOf? {α : Type} [DecidableEq α] (a : α) : List α → Option Nat
  | [] => none
  | b :: l => if a = b then some 0 else (idxOf? a l).map (· + 1)

/-- Abstract cache run over keys: a hit reports the stored index, a miss reports
the next index and appends the key to the history. -/
def absRun : List ResourceKey → List ResourceKey → List (Bool × Nat) × List ResourceKey
  | [], hist => ([], hist)
  | k :: ks, hist =>
    match idxOf? k hist with
    | some i =>
      let r := absRun ks hist
      ((false, i) :: r.1, r.2)
    | none =>
      let r := absRun ks (hist ++ [k])
      ((true, hist.length) :: r.1, r.2)

/-- The abstract summary of a response: its miss flag and id. -/
def respSummary : ImageCacheResponse → Bool × Nat
  | .Hit i => (false, i)
  | .Miss i _ => (true, i)

/-- The concrete cache state refines an abstract history. -/
def Sim (st : ImageCache) (hist : List ResourceKey) : Prop :=
  st.next_id = hist.length ∧ ∀ k, idOf st k = idxOf? k hist

/-- Helper `nth d l i`: the `i`-th element of `l`, or `d` when out of bounds. -/
def nth {α : Type} (d : α) : List α → Nat → α
  | [], _ => d
  | a :: _, 0 => a
  | _ :: l, i + 1 => nth d l i

/-- Default key used with `nth`. -/
def keyD : ResourceKey := .placeholderColor ⟨0, 0, 0, 0⟩

/-- Default summary used with `nth`. -/
def sumD : Bool × Nat := (false, 0)

/-- Default response used with `nth`. -/
def respD : ImageCacheResponse := .Hit 0

/-- Default material map used with `nth`. -/
def mapD : MeshMaterialMap := .Placeholder ⟨0, 0, 0, 0⟩

/-- The bindless handle table covers every id of the history. -/
def TableCov (hist : List ResourceKey) (table : List (Nat × BindlessImageHandle)) :
    Prop :=
  ∀ i, i < hist.length → (hashGet? i table).isSome = true

/-- A sample decoded image used in concrete runs. -/
def okImage : RawRgba8Image := { data := [7, 7, 7, 7], dimensions := [1, 1] }

/-- A loader that succeeds on every path with `okImage`. -/
def okLoader : Loader := fun _ => Except.ok okImage

/-- A loader that fails on every path. -/
def errLoader : Loader := fun _ => Except.error "io error"

/-- A sample load sequence with one placeholder key and one asset key, each
requested twice. -/
def mapsW : List MeshMaterialMap :=
  [.Placeholder ⟨255, 0, 0, 255⟩, .Asset "assets/a.png" 0,
   .Placeholder ⟨255, 0, 0, 255⟩, .Asset "assets/a.png" 1]

/-- A cache whose id counter sits at `usize::MAX`. -/
def stMax : ImageCache :=
  { loaded_images := [], placeholder_images := [], next_id := USIZE_MAX }

/-- Sample resolved handles for the rewrite. -/
def gpuIdsW : List BindlessImageHandle := [⟨10⟩, ⟨20⟩]

/-- Sample materials, referencing local map indices `[0,1]` and `[1]`. -/
def matsW : List MeshMaterial := [⟨[0, 1]⟩, ⟨[1]⟩]

theorem sim_new : Sim ImageCache.new [] := by
  refine ⟨rfl, fun k => ?_⟩
  cases k <;> rfl

theorem idxOf?_eq_none {α : Type} [DecidableEq α] {a : α} :
    ∀ {l : List α}, idxOf? a l = none ↔ a ∉ l := by
  intro l
  induction l with
  | nil => simp [idxOf?]
  | cons b l ih =>
    by_cases hab : a = b
    · subst hab
      simp [idxOf?]
    · simp [idxOf?, hab, ih]

theorem idxOf?_append_of_some {α : Type} [DecidableEq α] {a : α} :
    ∀ {l : List α} {i : Nat} (t : List α), idxOf? a l = some i →
      idxOf? a (l ++ t) = some i := by
  intro l
  induction l with
  | nil => intro i t h; simp [idxOf?] at h
  | cons b l ih =>
    intro i t h
    by_cases hab : a = b
    · subst hab
      simp [idxOf?] at h ⊢
      exact h
    · simp [idxOf?, hab] at h ⊢
      obtain ⟨j, hj, rfl⟩ := h
      exact ⟨j, ih t hj, rfl⟩

theorem idxOf?_append_singleton_ne {α : Type} [DecidableEq α] {a b : α}
    (hab : a ≠ b) : ∀ (l : List α), idxOf? a (l ++ [b]) = idxOf? a l := by
  intro l
  induction l with
  | nil => simp [idxOf?, hab]
  | cons c l ih =>
    by_cases hac : a = c
    · subst hac
      simp [idxOf?]
    · simp [idxOf?, hac, ih]

theorem idxOf?_append_self {α : Type} [DecidableEq α] {a : α} :
    ∀ {l : List α}, a ∉ l → idxOf? a (l ++ [a]) = some l.length := by
  intro l
  induction l with
  | nil => intro _; simp [idxOf?]
  | cons b l ih =>
    intro h
    have hab : a ≠ b := fun hc => h (hc ▸ List.mem_cons_self b l)
    have hal : a ∉ l := fun hc => h (List.mem_cons_of_mem b hc)
    simp [idxOf?, hab, ih hal]

theorem idxOf?_inj {α : Type} [DecidableEq α] {a b : α} :
    ∀ {l : List α} {i : Nat}, idxOf? a l = some i → idxOf? b l = some i → a = b := by
  intro l
  induction l with
  | nil => intro i ha; simp [idxOf?] at ha
  | cons c l ih =>
    intro i ha hb
    by_cases hac : a = c
    · subst hac
      simp [idxOf?] at ha
      by_cases hbc : b = a
      · exact hbc.symm
      · simp [idxOf?, hbc] at hb
        obtain ⟨j, _, hj⟩ := hb
        omega
    · by_cases hbc : b = c
      · subst hbc
        simp [idxOf?] at hb
        simp [idxOf?, hac] at ha
        obtain ⟨j, _, hj⟩ := ha
        omega
      · simp [idxOf?, hac] at ha
        simp [idxOf?, hbc] at hb
        obtain ⟨j, hj, rfl⟩ := ha
        obtain ⟨j2, hj2, hj2e⟩ := hb
        have : j2 = j := by omega
        subst this
        exact ih hj hj2

theorem idxOf?_lt_length {α : Type} [DecidableEq α] {a : α} :
    ∀ {l : List α} {i : Nat}, idxOf? a l = some i → i < l.length := by
  intro l
  induction l with
  | nil => intro i h; simp [idxOf?] at h
  | cons b l ih =>
    intro i h
    by_cases hab : a = b
    · subst hab
      simp [idxOf?] at h
      simp [← h]
    · simp [idxOf?, hab] at h
      obtain ⟨j, hj, rfl⟩ := h
      have := ih hj
      simp
      omega

theorem idxOf?_isSome_of_mem {α : Type} [DecidableEq α] {a : α} {l : List α}
    (h : a ∈ l) : ∃ i, idxOf? a l = some i := by
  rcases he : idxOf? a l with _ | i
  · exact absurd (idxOf?_eq_none.mp he) (by simp [h])
  · exact ⟨i, rfl⟩

@[simp] theorem nth_nil {α : Type} (d : α) (i : Nat) : nth d [] i = d := rfl

@[simp] theorem nth_cons_zero {α : Type} (d a : α) (l : List α) :
    nth d (a :: l) 0 = a := rfl

@[simp] theorem nth_cons_succ {α : Type} (d a : α) (l : List α) (i : Nat) :
    nth d (a :: l) (i + 1) = nth d l i := rfl

theorem nth_map {α β : Type} (f : α → β) :
    ∀ (l : List α) (i : Nat) (d : α), nth (f d) (l.map f) i = f (nth d l i) := by
  intro l
  induction l with
  | nil => intro i d; simp
  | cons a l ih =>
    intro i d
    cases i with
    | zero => simp
    | succ j => simpa using ih j d

theorem abs_spec : ∀ (ks hist : List ResourceKey), hist.Nodup →
    (absRun ks hist).1.length = ks.length ∧
    (∃ t, (absRun ks hist).2 = hist ++ t) ∧
    (absRun ks hist).2.Nodup ∧
    (∀ i, i < ks.length →
      idxOf? (nth keyD ks i) (absRun ks hist).2
          = some (nth sumD (absRun ks hist).1 i).2 ∧
      ((nth sumD (absRun ks hist).1 i).1 = true ↔
        (nth keyD ks i ∉ hist ∧ ∀ j, j < i → nth keyD ks j ≠ nth keyD ks i))) := by
  intro ks
  induction ks with
  | nil =>
    intro hist hn
    refine ⟨rfl, ⟨[], by simp [absRun]⟩, by simpa [absRun] using hn, ?_⟩
    intro i hi
    exact absurd hi (by simp)
  | cons k ks ih =>
    intro hist hn
    rcases h : idxOf? k hist with _ | i
    · -- miss: `k` is appended to the history
      have hkh : k ∉ hist := idxOf?_eq_none.mp h
      have hn' : (hist ++ [k]).Nodup := by
        simp [List.nodup_append, hn, List.disjoint_singleton, hkh]
      obtain ⟨hlen, ⟨t, ht⟩, hnd, hidx⟩ := ih (hist ++ [k]) hn'
      refine ⟨by simp [absRun, h, hlen], ⟨[k] ++ t, by simp [absRun, h, ht]⟩,
        by simpa [absRun, h] using hnd, ?_⟩
      intro i hi
      cases i with
      | zero =>
        constructor
        · have h1 : idxOf? k (hist ++ [k]) = some hist.length :=
            idxOf?_append_self hkh
          have h2 := idxOf?_append_of_some t h1
          have h3 : hist ++ [k] ++ t = hist ++ k :: t := by simp
          rw [h3] at h2
          simp [absRun, h, ht, h2]
        · simp [absRun, h, hkh]
      | succ j =>
        have hj : j < ks.length := by simpa using hi
        obtain ⟨hid, hflag⟩ := hidx j hj
        constructor
        · simpa [absRun, h] using hid
        · simp only [absRun, h, nth_cons_succ]
          rw [hflag]
          constructor
          · rintro ⟨hmem, hprev⟩
            have hnh : nth keyD ks j ∉ hist :=
              fun hc => hmem (List.mem_append.mpr (Or.inl hc))
            have hnk : nth keyD ks j ≠ k :=
              fun hc => hmem (List.mem_append.mpr (Or.inr (List.mem_singleton.mpr hc)))
            refine ⟨hnh, ?_⟩
            intro j2 hj2
            cases j2 with
            | zero =>
              rw [nth_cons_zero]
              exact fun hc => hnk hc.symm
            | succ j3 =>
              rw [nth_cons_succ]
              exact hprev j3 (by omega)
          · rintro ⟨hmem, hprev⟩
            have hk0 : k ≠ nth keyD ks j := by
              have := hprev 0 (by omega)
              rwa [nth_cons_zero] at this
            refine ⟨?_, ?_⟩
            · intro hc
              rcases List.mem_append.mp hc with hc1 | hc2
              · exact hmem hc1
              · exact hk0 (List.mem_singleton.mp hc2).symm
            · intro j3 hj3
              have := hprev (j3 + 1) (by omega)
              rwa [nth_cons_succ] at this
    · -- hit: the history is unchanged
      have hkmem : k ∈ hist := by
        by_contra hc
        rw [idxOf?_eq_none.mpr hc] at h
        cases h
      obtain ⟨hlen, ⟨t, ht⟩, hnd, hidx⟩ := ih hist hn
      refine ⟨by simp [absRun, h, hlen], ⟨t, by simp [absRun, h, ht]⟩,
        by simpa [absRun, h] using hnd, ?_⟩
      intro i0 hi0
      cases i0 with
      | zero =>
        constructor
        · have h2 := idxOf?_append_of_some t h
          simp [absRun, h, ht, h2]
        · simp [absRun, h, hkmem]
      | succ j =>
        have hj : j < ks.length := by simpa using hi0
        obtain ⟨hid, hflag⟩ := hidx j hj
        constructor
        · simpa [absRun, h] using hid
        · simp only [absRun, h, nth_cons_succ]
          rw [hflag]
          constructor
          · rintro ⟨hmem, hprev⟩
            refine ⟨hmem, ?_⟩
            intro j2 hj2
            cases j2 with
            | zero =>
              rw [nth_cons_zero]
              exact fun hc => hmem (hc ▸ hkmem)
            | succ j3 =>
              rw [nth_cons_succ]
              exact hprev j3 (by omega)
          · rintro ⟨hmem, hprev⟩
            refine ⟨hmem, ?_⟩
            intro j3 hj3
            have := hprev (j3 + 1) (by omega)
            rwa [nth_cons_succ] at this

theorem abs_miss_ids : ∀ (ks hist : List ResourceKey),
    (absRun ks hist).1.filterMap (fun r => if r.1 then some r.2 else none)
      = List.range' hist.length ((absRun ks hist).1.countP (·.1)) := by
  intro ks
  induction ks with
  | nil => intro hist; simp [absRun]
  | cons k ks ih =>
    intro hist
    rcases h : idxOf? k hist with _ | i
    · have := ih (hist ++ [k])
      simp only [absRun, h, List.filterMap_cons, List.countP_cons, if_pos rfl]
      simp only [List.length_append, List.length_cons, List.length_nil] at this
      simp [this, List.range'_succ]
    · have := ih hist
      simp only [absRun, h, List.filterMap_cons, List.countP_cons]
      simpa using this

theorem abs_countP : ∀ (ks hist : List ResourceKey) (k : ResourceKey),
    List.countP (fun p => decide (p.1 = k) && p.2.1) (ks.zip (absRun ks hist).1)
      = if k ∈ ks ∧ k ∉ hist then 1 else 0 := by
  intro ks
  induction ks with
  | nil => intro hist k; simp [absRun]
  | cons k1 ks ih =>
    intro hist k
    rcases h : idxOf? k1 hist with _ | i
    · -- miss
      have hk1 : k1 ∉ hist := idxOf?_eq_none.mp h
      have htail := ih (hist ++ [k1]) k
      by_cases hkk : k = k1
      · subst hkk
        have hnot : ¬(k ∈ ks ∧ k ∉ hist ++ [k]) := by
          rintro ⟨_, hc⟩
          exact hc (List.mem_append.mpr (Or.inr (List.mem_singleton.mpr rfl)))
        rw [if_neg hnot] at htail
        simp [absRun, h, List.countP_cons, htail, hk1]
      · have hmemiff : (k ∈ ks ∧ k ∉ hist ++ [k1]) ↔ (k ∈ ks ∧ k ∉ hist) := by
          constructor
          · rintro ⟨h1, h2⟩
            exact ⟨h1, fun hc => h2 (List.mem_append.mpr (Or.inl hc))⟩
          · rintro ⟨h1, h2⟩
            refine ⟨h1, fun hc => ?_⟩
            rcases List.mem_append.mp hc with hc1 | hc2
            · exact h2 hc1
            · exact hkk (List.mem_singleton.mp hc2)
        simp only [hmemiff] at htail
        simp [absRun, h, List.countP_cons, htail, hkk, Ne.symm hkk, List.mem_cons]
    · -- hit
      have hk1 : k1 ∈ hist := by
        by_contra hc
        rw [idxOf?_eq_none.mpr hc] at h
        cases h
      have htail := ih hist k
      by_cases hkk : k = k1
      · subst hkk
        have hnot : ¬(k ∈ ks ∧ k ∉ hist) := fun hc => hc.2 hk1
        rw [if_neg hnot] at htail
        simp [absRun, h, List.countP_cons, htail, hk1]
      · simp [absRun, h, List.countP_cons, htail, hkk, Ne.symm hkk, List.mem_cons]

theorem load_hit (loader : Loader) (st : ImageCache) (m : MeshMaterialMap) (i : Nat)
    (h : idOf st (key m) = some i) :
    load_mesh_map loader st m = (.ok (.Hit i), st) := by
  cases m with
  | Asset p q =>
    simp only [idOf, key] at h
    rcases hc : hashGet? p st.loaded_images with _ | cached
    · rw [hc] at h; cases h
    · rw [hc] at h
      have hce : cached.id = i := by simpa using h
      subst hce
      simp [load_mesh_map, hc]
  | Placeholder c =>
    simp only [idOf, key] at h
    simp [load_mesh_map, h]

theorem load_miss (loader : Loader) (st : ImageCache) (m : MeshMaterialMap)
    (h : idOf st (key m) = none) (hmax : st.next_id < USIZE_MAX)
    (hok : ∀ p q, m = .Asset p q → ∃ img, loader p = Except.ok img) :
    ∃ img st2, load_mesh_map loader st m = (.ok (.Miss st.next_id img), st2) ∧
      st2.next_id = st.next_id + 1 ∧
      (∀ k2, idOf st2 k2 = if k2 = key m then some st.next_id else idOf st k2) := by
  have hadd : checked_add st.next_id 1 = some (st.next_id + 1) := by
    simp [checked_add]
    omega
  cases m with
  | Asset p q =>
    simp only [idOf, key, Option.map_eq_none'] at h
    obtain ⟨img, himg⟩ := hok p q rfl
    refine ⟨img,
      { st with
        loaded_images :=
          hashInsert p { lazy_handle := p, id := st.next_id } st.loaded_images,
        next_id := st.next_id + 1 }, ?_, ?_, ?_⟩
    · simp [load_mesh_map, h, himg, hadd]
    · rfl
    · intro k2
      cases k2 with
      | assetPath p2 =>
        by_cases hp : p2 = p
        · subst hp
          simp [idOf, key, hashInsert, hashGet?]
        · simp [idOf, key, hashInsert, hashGet?, hp]
      | placeholderColor c2 =>
        simp [idOf, key]
  | Placeholder c =>
    simp only [idOf, key] at h
    refine ⟨{ data := rgba_to_vec c, dimensions := [1, 1] },
      { st with
        placeholder_images := hashInsert c st.next_id st.placeholder_images,
        next_id := st.next_id + 1 }, ?_, ?_, ?_⟩
    · simp [load_mesh_map, h, hadd]
    · rfl
    · intro k2
      cases k2 with
      | assetPath p2 =>
        simp [idOf, key]
      | placeholderColor c2 =>
        by_cases hc2 : c2 = c
        · subst hc2
          simp [idOf, key, hashInsert, hashGet?]
        · simp [idOf, key, hashInsert, hashGet?, hc2]

theorem sim_run : ∀ (ms : List MeshMaterialMap) (st : ImageCache)
    (hist : List ResourceKey) (loader : Loader), Sim st hist →
    (∀ p, ∃ img, loader p = Except.ok img) →
    hist.length + ms.length ≤ USIZE_MAX →
    ∃ rs st2, runLoads loader ms st = (.ok rs, st2) ∧
      Sim st2 (absRun (ms.map key) hist).2 ∧
      rs.map respSummary = (absRun (ms.map key) hist).1 := by
  intro ms
  induction ms with
  | nil =>
    intro st hist loader hsim hok hmax
    exact ⟨[], st, rfl, by simpa [absRun] using hsim, by simp [absRun]⟩
  | cons m ms ih =>
    intro st hist loader hsim hok hmax
    rcases h : idxOf? (key m) hist with _ | i
    · -- first occurrence of this key
      have hid : idOf st (key m) = none := by rw [hsim.2 (key m), h]
      have hlt : st.next_id < USIZE_MAX := by
        rw [hsim.1]
        simp only [List.length_cons] at hmax
        omega
      obtain ⟨img, st1, hload, hnext, hidOf⟩ :=
        load_miss loader st m hid hlt (fun p q hpq => hok p)
      have hsim1 : Sim st1 (hist ++ [key m]) := by
        constructor
        · rw [hnext, hsim.1]; simp
        · intro k2
          rw [hidOf k2]
          by_cases hk2 : k2 = key m
          · subst hk2
            rw [if_pos rfl, idxOf?_append_self (idxOf?_eq_none.mp h), hsim.1]
          · rw [if_neg hk2, idxOf?_append_singleton_ne hk2, hsim.2 k2]
      have hmax1 : (hist ++ [key m]).length + ms.length ≤ USIZE_MAX := by
        simp only [List.length_append, List.length_cons, List.length_nil]
        simp only [List.length_cons] at hmax
        omega
      obtain ⟨rs, st2, hrun, hsim2, hsum⟩ := ih st1 (hist ++ [key m]) loader hsim1 hok hmax1
      refine ⟨.Miss st.next_id img :: rs, st2, ?_, ?_, ?_⟩
      · simp [runLoads, hload, hrun]
      · simpa [absRun, h] using hsim2
      · simp only [absRun, h, List.map_cons]
        rw [hsum]
        simp [respSummary, hsim.1]
    · -- repeat occurrence
      have hid : idOf st (key m) = some i := by rw [hsim.2 (key m), h]
      have hload := load_hit loader st m i hid
      have hmax1 : hist.length + ms.length ≤ USIZE_MAX := by
        simp only [List.length_cons] at hmax
        omega
      obtain ⟨rs, st2, hrun, hsim2, hsum⟩ := ih st hist loader hsim hok hmax1
      refine ⟨.Hit i :: rs, st2, ?_, ?_, ?_⟩
      · simp [runLoads, hload, hrun]
      · simpa [absRun, h] using hsim2
      · simp only [absRun, h, List.map_cons]
        rw [hsum]
        simp [respSummary]

theorem gids_run : ∀ (ms : List MeshMaterialMap) (st : ImageCache)
    (hist : List ResourceKey) (table : List (Nat × BindlessImageHandle))
    (rc : RenderClient) (loader : Loader), Sim st hist →
    (∀ p, ∃ img, loader p = Except.ok img) →
    hist.length + ms.length ≤ USIZE_MAX → TableCov hist table →
    ∃ hs st2 t2 rc2, mesh_map_gpu_ids loader ms st table rc = (.ok hs, st2, t2, rc2) ∧
      rc2.images.length
        = rc.images.length + (absRun (ms.map key) hist).1.countP (·.1) := by
  intro ms
  induction ms with
  | nil =>
    intro st hist table rc loader hsim hok hmax hcov
    exact ⟨[], st, table, rc, rfl, by simp [absRun]⟩
  | cons m ms ih =>
    intro st hist table rc loader hsim hok hmax hcov
    rcases h : idxOf? (key m) hist with _ | i
    · -- miss: add_image is called and the table extended
      have hid : idOf st (key m) = none := by rw [hsim.2 (key m), h]
      have hlt : st.next_id < USIZE_MAX := by
        rw [hsim.1]
        simp only [List.length_cons] at hmax
        omega
      obtain ⟨img, st1, hload, hnext, hidOf⟩ :=
        load_miss loader st m hid hlt (fun p q hpq => hok p)
      have hsim1 : Sim st1 (hist ++ [key m]) := by
        constructor
        · rw [hnext, hsim.1]; simp
        · intro k2
          rw [hidOf k2]
          by_cases hk2 : k2 = key m
          · subst hk2
            rw [if_pos rfl, idxOf?_append_self (idxOf?_eq_none.mp h), hsim.1]
          · rw [if_neg hk2, idxOf?_append_singleton_ne hk2, hsim.2 k2]
      have hmax1 : (hist ++ [key m]).length + ms.length ≤ USIZE_MAX := by
        simp only [List.length_append, List.length_cons, List.length_nil]
        simp only [List.length_cons] at hmax
        omega
      have hcov1 : TableCov (hist ++ [key m])
          (hashInsert st.next_id ⟨rc.images.length⟩ table) := by
        intro i hi
        simp only [List.length_append, List.length_cons, List.length_nil] at hi
        by_cases hieq : i = st.next_id
        · subst hieq
          simp [hashInsert, hashGet?]
        · have : i < hist.length := by
            rw [hsim.1] at hieq
            omega
          have := hcov i this
          simpa [hashInsert, hashGet?, hieq] using this
      obtain ⟨hs, st2, t2, rc2, hrun, hlen⟩ :=
        ih st1 (hist ++ [key m]) (hashInsert st.next_id ⟨rc.images.length⟩ table)
          ⟨rc.images ++ [img]⟩ loader hsim1 hok hmax1 hcov1
      refine ⟨⟨rc.images.length⟩ :: hs, st2, t2, rc2, ?_, ?_⟩
      · simp [mesh_map_gpu_ids, hload, add_image, hrun]
      · rw [hlen]
        simp [absRun, h, List.countP_cons]
        omega
    · -- hit: the table already holds the handle
      have hid : idOf st (key m) = some i := by rw [hsim.2 (key m), h]
      have hload := load_hit loader st m i hid
      have hilt : i < hist.length := idxOf?_lt_length h
      have hsome := hcov i hilt
      rcases htbl : hashGet? i table with _ | handle
      · rw [htbl] at hsome; cases hsome
      · have hmax1 : hist.length + ms.length ≤ USIZE_MAX := by
          simp only [List.length_cons] at hmax
          omega
        obtain ⟨hs, st2, t2, rc2, hrun, hlen⟩ :=
          ih st hist table rc loader hsim hok hmax1 hcov
        refine ⟨handle :: hs, st2, t2, rc2, ?_, ?_⟩
        · simp [mesh_map_gpu_ids, hload, htbl, hrun]
        · rw [hlen]
          simp [absRun, h, List.countP_cons]

/-! ### Simpler claims: overflow, error path, placeholder branch, rewrite,
frame loop, mouse input -/

/-- C3: if allocating the next logical id would overflow (`next_id = usize::MAX`
at a `Miss`), `load_mesh_map` aborts by panic (`fatal`), not through the `Result`
error channel; with `next_id < usize::MAX` (fewer than `usize::MAX` distinct keys
loaded) the panic branch is unreachable and every call (with a succeeding loader)
returns normally. -/
theorem id_counter_overflow (loader : Loader) :
    (∀ st m, st.next_id = USIZE_MAX → idOf st (key m) = none →
      (∀ p q, m = MeshMaterialMap.Asset p q → ∃ img, loader p = Except.ok img) →
      load_mesh_map loader st m = (.fatal "Ran out of image IDs", st)) ∧
    (∀ st m, st.next_id < USIZE_MAX →
      (∀ p q, m = MeshMaterialMap.Asset p q → ∃ img, loader p = Except.ok img) →
      ∃ r st2, load_mesh_map loader st m = (LoadResult.ok r, st2)) := by
  constructor
  · intro st m hmaxed hnone hok
    have hadd : checked_add st.next_id 1 = none := by
      rw [hmaxed]
      decide
    cases m with
    | Asset p q =>
      simp only [idOf, key, Option.map_eq_none'] at hnone
      obtain ⟨img, himg⟩ := hok p q rfl
      simp [load_mesh_map, hnone, himg, hadd]
    | Placeholder c =>
      simp only [idOf, key] at hnone
      simp [load_mesh_map, hnone, hadd]
  · intro st m hlt hok
    rcases hid : idOf st (key m) with _ | i
    · obtain ⟨img, st2, hload, _, _⟩ := load_miss loader st m hid hlt hok
      exact ⟨_, _, hload⟩
    · exact ⟨_, _, load_hit loader st m i hid⟩

theorem id_counter_overflow_witness :
    load_mesh_map okLoader stMax (.Placeholder ⟨1, 2, 3, 4⟩)
      = (.fatal "Ran out of image IDs", stMax) ∧
    ∃ r st2, load_mesh_map okLoader ImageCache.new (.Placeholder ⟨1, 2, 3, 4⟩)
      = (LoadResult.ok r, st2) :=
  ⟨(id_counter_overflow okLoader).1 stMax (.Placeholder ⟨1, 2, 3, 4⟩) rfl rfl
      (by intro p q h; cases h),
   (id_counter_overflow okLoader).2 ImageCache.new (.Placeholder ⟨1, 2, 3, 4⟩)
      (by decide) (by intro p q h; cases h)⟩

/-- C4: a failing lazy evaluation for an uncached asset path propagates the
underlying error through the `Result` channel and leaves the cache unchanged
(no entry inserted, `next_id` not incremented), so a repeated identical request
attempts the load again and can then succeed with a `Miss` at the same id. -/
theorem load_error_no_cache (loader : Loader) (st : ImageCache) (p : String)
    (q : Nat) (e : String) (hmiss : hashGet? p st.loaded_images = none)
    (herr : loader p = Except.error e) :
    load_mesh_map loader st (.Asset p q) = (.err e, st) ∧
    ∀ (loader2 : Loader) (img : RawRgba8Image), loader2 p = Except.ok img →
      st.next_id < USIZE_MAX →
      load_mesh_map loader2 st (.Asset p q) =
        (.ok (.Miss st.next_id img),
         { st with
           loaded_images :=
             hashInsert p { lazy_handle := p, id := st.next_id } st.loaded_images,
           next_id := st.next_id + 1 }) := by
  constructor
  · simp [load_mesh_map, hmiss, herr]
  · intro loader2 img himg hlt
    have hadd : checked_add st.next_id 1 = some (st.next_id + 1) := by
      simp [checked_add]
      omega
    simp [load_mesh_map, hmiss, himg, hadd]

theorem load_error_no_cache_witness :
    load_mesh_map errLoader ImageCache.new (.Asset "assets/a.png" 0)
      = (.err "io error", ImageCache.new) ∧
    load_mesh_map okLoader ImageCache.new (.Asset "assets/a.png" 0)
      = (.ok (.Miss 0 okImage),
         { ImageCache.new with
           loaded_images :=
             hashInsert "assets/a.png" { lazy_handle := "assets/a.png", id := 0 } [],
           next_id := 1 }) :=
  ⟨(load_error_no_cache errLoader ImageCache.new "assets/a.png" 0 "io error"
      rfl rfl).1,
   (load_error_no_cache errLoader ImageCache.new "assets/a.png" 0 "io error"
      rfl rfl).2 okLoader okImage rfl (by decide)⟩

/-- C5: the `Placeholder` branch never invokes the lazy evaluation cache (its
outcome does not depend on the loader), and on first occurrence it returns a
`Miss` whose image is 1×1 with pixel data equal to the key's 4-byte constant. -/
theorem placeholder_no_lazy (loader1 loader2 : Loader) (st : ImageCache)
    (c : Rgba) :
    load_mesh_map loader1 st (.Placeholder c)
      = load_mesh_map loader2 st (.Placeholder c) ∧
    (hashGet? c st.placeholder_images = none → st.next_id < USIZE_MAX →
      load_mesh_map loader1 st (.Placeholder c) =
        (.ok (.Miss st.next_id
            { data := [c.r, c.g, c.b, c.a], dimensions := [1, 1] }),
         { st with
           placeholder_images := hashInsert c st.next_id st.placeholder_images,
           next_id := st.next_id + 1 })) := by
  constructor
  · rfl
  · intro hnone hlt
    have hadd : checked_add st.next_id 1 = some (st.next_id + 1) := by
      simp [checked_add]
      omega
    simp [load_mesh_map, hnone, hadd, rgba_to_vec]

theorem placeholder_no_lazy_witness :
    load_mesh_map okLoader ImageCache.new (.Placeholder ⟨255, 0, 0, 255⟩)
      = load_mesh_map errLoader ImageCache.new (.Placeholder ⟨255, 0, 0, 255⟩) ∧
    load_mesh_map okLoader ImageCache.new (.Placeholder ⟨255, 0, 0, 255⟩)
      = (.ok (.Miss 0 { data := [255, 0, 0, 255], dimensions := [1, 1] }),
         { ImageCache.new with
           placeholder_images := hashInsert ⟨255, 0, 0, 255⟩ 0 [],
           next_id := 1 }) :=
  ⟨(placeholder_no_lazy okLoader errLoader ImageCache.new ⟨255, 0, 0, 255⟩).1,
   (placeholder_no_lazy okLoader errLoader ImageCache.new ⟨255, 0, 0, 255⟩).2
      rfl (by decide)⟩

theorem get?_eq_nth {α : Type} (d : α) :
    ∀ (l : List α) (i : Nat), i < l.length → l[i]? = some (nth d l i) := by
  intro l
  induction l with
  | nil => intro i hi; exact absurd hi (by simp)
  | cons a l ih =>
    intro i hi
    cases i with
    | zero => simp
    | succ j =>
      have : j < l.length := by simpa using hi
      simpa using ih j this

theorem rewrite_slots_spec (gpu_ids : List BindlessImageHandle) :
    ∀ (ms : List Nat), (∀ m ∈ ms, m < gpu_ids.length) →
      rewrite_slots gpu_ids ms = some (ms.map fun m => (nth ⟨0⟩ gpu_ids m).val) := by
  intro ms
  induction ms with
  | nil => intro _; rfl
  | cons m ms ih =>
    intro hb
    have hm : m < gpu_ids.length := hb m (List.mem_cons_self m ms)
    have hms : ∀ m2 ∈ ms, m2 < gpu_ids.length :=
      fun m2 hm2 => hb m2 (List.mem_cons_of_mem m hm2)
    simp [rewrite_slots, get?_eq_nth (⟨0⟩ : BindlessImageHandle) gpu_ids m hm, ih hms]

/-- C7: with a resolved-handle list covering every referenced slot index, the
rewrite replaces each scene-local index `m` by the handle payload at position
`m`; in particular materials `[0,1]` and `[1]` under handles `[H0, H1]` become
`[H0, H1]` and `[H1]`. -/
theorem material_rewrite_correct (gpu_ids : List BindlessImageHandle)
    (mats : List MeshMaterial)
    (hb : ∀ mat ∈ mats, ∀ m ∈ mat.maps, m < gpu_ids.length) :
    rewrite_material_maps gpu_ids mats
      = some (mats.map fun mat =>
          ⟨mat.maps.map fun m => (nth ⟨0⟩ gpu_ids m).val⟩) ∧
    ∀ H0 H1 : BindlessImageHandle,
      rewrite_material_maps [H0, H1] [⟨[0, 1]⟩, ⟨[1]⟩]
        = some [⟨[H0.val, H1.val]⟩, ⟨[H1.val]⟩] := by
  constructor
  · induction mats with
    | nil => rfl
    | cons mat mats ih =>
      have hmat : ∀ m ∈ mat.maps, m < gpu_ids.length :=
        hb mat (List.mem_cons_self mat mats)
      have hmats : ∀ mat2 ∈ mats, ∀ m ∈ mat2.maps, m < gpu_ids.length :=
        fun mat2 hm2 => hb mat2 (List.mem_cons_of_mem mat hm2)
      simp [rewrite_material_maps, rewrite_slots_spec gpu_ids mat.maps hmat, ih hmats]
  · intro H0 H1
    rfl

theorem material_rewrite_witness :
    rewrite_material_maps gpuIdsW matsW
      = some (matsW.map fun mat =>
          ⟨mat.maps.map fun m => (nth ⟨0⟩ gpuIdsW m).val⟩) ∧
    rewrite_material_maps [⟨10⟩, ⟨20⟩] [⟨[0, 1]⟩, ⟨[1]⟩]
      = some [⟨[10, 20]⟩, ⟨[20]⟩] :=
  ⟨(material_rewrite_correct gpuIdsW matsW (by decide)).1,
   (material_rewrite_correct gpuIdsW matsW (by decide)).2 ⟨10⟩ ⟨20⟩⟩

theorem run_frames_append : ∀ (xs ys : List (Except String Unit))
    (latch : Option String),
    run_frames (xs ++ ys) latch =
      ⟨(run_frames xs latch).draws ++ (run_frames ys (run_frames xs latch).latch).draws,
       (run_frames xs latch).lines ++ (run_frames ys (run_frames xs latch).latch).lines,
       (run_frames ys (run_frames xs latch).latch).latch⟩ := by
  intro xs
  induction xs with
  | nil => intro ys latch; simp [run_frames]
  | cons x xs ih =>
    intro ys latch
    simp [run_frames, ih]

theorem run_frames_latched_err : ∀ (n : Nat) (e : String),
    run_frames (List.replicate n (Except.error e)) (some e)
      = ⟨List.replicate n false, [], some e⟩ := by
  intro n
  induction n with
  | zero => intro e; rfl
  | succ m ih =>
    intro e
    have hstep : frame_step (Except.error e) (some e) = (false, [], some e) := by
      simp [frame_step]
    simp [List.replicate_succ, run_frames, hstep, ih]

/-- C8: a failing frame whose formatted error text equals the latch prints
nothing and leaves the latch; one whose text differs prints the text and updates
the latch. In particular `n ≥ 1` consecutive identical failures print exactly one
line, and a following failure with a different text prints a second line. -/
theorem frame_error_dedup (e1 e2 : String) (n : Nat) (hne : e1 ≠ e2)
    (hn : 0 < n) :
    (∀ (e : String) (latch : Option String), latch = some e →
      frame_step (Except.error e) latch = (false, [], latch)) ∧
    (∀ (e : String) (latch : Option String), latch ≠ some e →
      frame_step (Except.error e) latch = (false, [e], some e)) ∧
    (run_frames (List.replicate n (Except.error e1)) none).lines = [e1] ∧
    (run_frames (List.replicate n (Except.error e1) ++ [Except.error e2])
        none).lines = [e1, e2] := by
  have hfirst : ∀ m : Nat,
      run_frames (List.replicate (m + 1) (Except.error e1)) none
        = ⟨false :: List.replicate m false, [e1], some e1⟩ := by
    intro m
    have hstep : frame_step (Except.error e1) none = (false, [e1], some e1) := by
      simp [frame_step]
    simp [List.replicate_succ, run_frames, hstep, run_frames_latched_err]
  obtain ⟨m, rfl⟩ : ∃ m, n = m + 1 := ⟨n - 1, by omega⟩
  refine ⟨?_, ?_, ?_, ?_⟩
  · intro e latch hl
    subst hl
    simp [frame_step]
  · intro e latch hl
    simp [frame_step, Ne.symm hl]
  · rw [hfirst m]
  · rw [run_frames_append, hfirst m]
    have hstep2 : frame_step (Except.error e2) (some e1) = (false, [e2], some e2) := by
      simp [frame_step, Ne.symm hne]
    simp [run_frames, hstep2]

theorem frame_error_dedup_witness :
    (run_frames (List.replicate 5 (Except.error "frame error A")) none).lines
      = ["frame error A"] ∧
    (run_frames (List.replicate 5 (Except.error "frame error A")
        ++ [Except.error "frame error B"]) none).lines
      = ["frame error A", "frame error B"] :=
  ⟨(frame_error_dedup "frame error A" "frame error B" 5 (by decide)
      (by decide)).2.2.1,
   (frame_error_dedup "frame error A" "frame error B" 5 (by decide)
      (by decide)).2.2.2⟩

/-- C9: a successful `prepare_frame` runs `draw_frame` and clears the latch; a
fail / succeed / fail-again sequence draws exactly on the middle frame and
prints the recurring error text a second time because the latch was cleared. -/
theorem frame_recovery :
    (∀ latch : Option String, frame_step (Except.ok ()) latch = (true, [], none)) ∧
    (∀ e : String,
      run_frames [Except.error e, Except.ok (), Except.error e] none
        = ⟨[false, true, false], [e, e], some e⟩) := by
  constructor
  · intro latch
    rfl
  · intro e
    have hstep : frame_step (Except.error e) none = (false, [e], some e) := by
      simp [frame_step]
    simp [run_frames, hstep, frame_step]

/-- C10: every mouse button other than Left, Middle, Right maps to button id 0,
so its press or release updates the very same bit of the button mask as the left
button: the two are indistinguishable in the resulting input state. -/
theorem mouse_button_other_as_left :
    (∀ n : Nat, mouse_button_id (.Other n) = mouse_button_id .Left) ∧
    (∀ (state : ElementState) (mask n : Nat),
      apply_mouse_input state (.Other n) mask
        = apply_mouse_input state .Left mask) := by
  constructor
  · intro n
    rfl
  · intro state mask n
    cases state <;> rfl

/-! ### Deduplication, id monotonicity, and key isolation -/

theorem respSummary_fst (r : ImageCacheResponse) :
    (respSummary r).1 = r.is_miss := by
  cases r <;> rfl

theorem respSummary_snd (r : ImageCacheResponse) :
    (respSummary r).2 = r.resp_id := by
  cases r <;> rfl

theorem run_fresh (loader : Loader) (maps : List MeshMaterialMap)
    (hok : ∀ p, ∃ img, loader p = Except.ok img)
    (hmax : maps.length ≤ USIZE_MAX) :
    ∃ rs st2, runLoads loader maps ImageCache.new = (.ok rs, st2) ∧
      Sim st2 (absRun (maps.map key) []).2 ∧
      rs.map respSummary = (absRun (maps.map key) []).1 := by
  have hmax0 : ([] : List ResourceKey).length + maps.length ≤ USIZE_MAX := by
    simpa using hmax
  exact sim_run maps ImageCache.new [] loader sim_new hok hmax0

/-- C1: from a fresh cache, for any load sequence the first call for each
distinct key returns `Miss` and every later call for that key returns `Hit`, all
carrying the same logical id; `add_image` runs exactly once per distinct key
— once per `Miss`, and each key's calls contain exactly one `Miss`. -/
theorem load_mesh_map_dedup (loader : Loader) (maps : List MeshMaterialMap)
    (hok : ∀ p, ∃ img, loader p = Except.ok img)
    (hmax : maps.length ≤ USIZE_MAX) :
    ∃ rs st2, runLoads loader maps ImageCache.new = (.ok rs, st2) ∧
      rs.length = maps.length ∧
      (∀ i, i < maps.length →
        ((nth respD rs i).is_miss = true ↔
          ∀ j, j < i → key (nth mapD maps j) ≠ key (nth mapD maps i))) ∧
      (∀ i j, i < maps.length → j < maps.length →
        key (nth mapD maps i) = key (nth mapD maps j) →
        (nth respD rs i).resp_id = (nth respD rs j).resp_id) ∧
      (∀ k, k ∈ maps.map key →
        List.countP (fun pr => decide (key pr.1 = k) && pr.2.is_miss)
          (maps.zip rs) = 1) ∧
      ∃ hs st3 t3 rc3,
        mesh_map_gpu_ids loader maps ImageCache.new [] ⟨[]⟩
          = (.ok hs, st3, t3, rc3) ∧
        rc3.images.length = List.countP ImageCacheResponse.is_miss rs := by
  obtain ⟨rs, st2, hrun, hsim2, hsum⟩ := run_fresh loader maps hok hmax
  obtain ⟨hlen, ⟨t, ht⟩, hnd, hidx⟩ := abs_spec (maps.map key) [] List.nodup_nil
  have hrslen : rs.length = maps.length := by
    have h1 : (rs.map respSummary).length = (absRun (maps.map key) []).1.length := by
      rw [hsum]
    simp only [List.length_map] at h1 hlen
    rw [h1, hlen]
  have hsumnth : ∀ i, nth sumD (absRun (maps.map key) []).1 i
      = respSummary (nth respD rs i) := by
    intro i
    rw [← hsum]
    exact nth_map respSummary rs i respD
  have hksnth : ∀ i, nth keyD (maps.map key) i = key (nth mapD maps i) :=
    fun i => nth_map key maps i mapD
  have hmaplen : ∀ i, i < maps.length → i < (maps.map key).length := by
    intro i hi
    simpa using hi
  refine ⟨rs, st2, hrun, hrslen, ?_, ?_, ?_, ?_⟩
  · -- miss exactly on first occurrence
    intro i hi
    have hflag := (hidx i (hmaplen i hi)).2
    rw [hsumnth i, respSummary_fst] at hflag
    rw [hflag]
    constructor
    · rintro ⟨_, hp⟩ j hj
      have h3 := hp j hj
      rwa [hksnth j, hksnth i] at h3
    · intro hp
      refine ⟨List.not_mem_nil _, fun j hj => ?_⟩
      rw [hksnth j, hksnth i]
      exact hp j hj
  · -- one id per key
    intro i j hi hj hkeq
    have h1 := (hidx i (hmaplen i hi)).1
    have h2 := (hidx j (hmaplen j hj)).1
    rw [hksnth i, hsumnth i, respSummary_snd] at h1
    rw [hksnth j, hsumnth j, respSummary_snd] at h2
    rw [hkeq] at h1
    exact Option.some_inj.mp (h1.symm.trans h2)
  · -- each key missed exactly once
    intro k hk
    have habs := abs_countP (maps.map key) [] k
    rw [if_pos ⟨hk, List.not_mem_nil k⟩] at habs
    have hpred : ((fun pr : ResourceKey × (Bool × Nat) =>
          decide (pr.1 = k) && pr.2.1) ∘ Prod.map key respSummary)
        = fun pr : MeshMaterialMap × ImageCacheResponse =>
            decide (key pr.1 = k) && pr.2.is_miss := by
      funext pr
      cases pr with
      | mk m r => simp [Function.comp, Prod.map, respSummary_fst]
    calc List.countP (fun pr => decide (key pr.1 = k) && pr.2.is_miss)
          (maps.zip rs)
        = List.countP (fun pr => decide (pr.1 = k) && pr.2.1)
            ((maps.map key).zip (rs.map respSummary)) := by
          rw [List.zip_map, List.countP_map, hpred]
      _ = 1 := by
          rw [hsum]
          exact habs
  · -- add_image once per miss
    obtain ⟨hs, st3, t3, rc3, hgrun, hglen⟩ :=
      gids_run maps ImageCache.new [] [] ⟨[]⟩ loader sim_new hok
        (by simpa using hmax) (by intro i hi; simp at hi)
    refine ⟨hs, st3, t3, rc3, hgrun, ?_⟩
    have hcp : (absRun (maps.map key) []).1.countP (·.1)
        = List.countP ImageCacheResponse.is_miss rs := by
      rw [← hsum, List.countP_map]
      have hp2 : ((fun s : Bool × Nat => s.1) ∘ respSummary)
          = ImageCacheResponse.is_miss := by
        funext r
        cases r <;> rfl
      rw [hp2]
    rw [hglen, hcp]
    simp

theorem load_mesh_map_dedup_witness :
    ∃ rs st2, runLoads okLoader mapsW ImageCache.new = (.ok rs, st2) ∧
      rs.length = mapsW.length ∧
      (∀ i, i < mapsW.length →
        ((nth respD rs i).is_miss = true ↔
          ∀ j, j < i → key (nth mapD mapsW j) ≠ key (nth mapD mapsW i))) ∧
      (∀ i j, i < mapsW.length → j < mapsW.length →
        key (nth mapD mapsW i) = key (nth mapD mapsW j) →
        (nth respD rs i).resp_id = (nth respD rs j).resp_id) ∧
      (∀ k, k ∈ mapsW.map key →
        List.countP (fun pr => decide (key pr.1 = k) && pr.2.is_miss)
          (mapsW.zip rs) = 1) ∧
      ∃ hs st3 t3 rc3,
        mesh_map_gpu_ids okLoader mapsW ImageCache.new [] ⟨[]⟩
          = (.ok hs, st3, t3, rc3) ∧
        rc3.images.length = List.countP ImageCacheResponse.is_miss rs :=
  load_mesh_map_dedup okLoader mapsW (fun p => ⟨okImage, rfl⟩) (by decide)

/-- C2: from a fresh cache, the logical ids handed out on `Miss` responses form
`0, 1, 2, ...` in first-occurrence order — strictly increasing, gap-free,
starting at 0, drawn from the one counter shared by asset and placeholder keys —
and an id determines its key: no id is ever reassigned to another key. -/
theorem logical_ids_monotone (loader : Loader) (maps : List MeshMaterialMap)
    (hok : ∀ p, ∃ img, loader p = Except.ok img)
    (hmax : maps.length ≤ USIZE_MAX) :
    ∃ rs st2, runLoads loader maps ImageCache.new = (.ok rs, st2) ∧
      rs.filterMap ImageCacheResponse.miss_id
        = List.range (rs.countP ImageCacheResponse.is_miss) ∧
      (∀ i j, i < maps.length → j < maps.length →
        (nth respD rs i).resp_id = (nth respD rs j).resp_id →
        key (nth mapD maps i) = key (nth mapD maps j)) := by
  obtain ⟨rs, st2, hrun, hsim2, hsum⟩ := run_fresh loader maps hok hmax
  obtain ⟨hlen, ⟨t, ht⟩, hnd, hidx⟩ := abs_spec (maps.map key) [] List.nodup_nil
  have hsumnth : ∀ i, nth sumD (absRun (maps.map key) []).1 i
      = respSummary (nth respD rs i) := by
    intro i
    rw [← hsum]
    exact nth_map respSummary rs i respD
  have hksnth : ∀ i, nth keyD (maps.map key) i = key (nth mapD maps i) :=
    fun i => nth_map key maps i mapD
  have hmaplen : ∀ i, i < maps.length → i < (maps.map key).length := by
    intro i hi
    simpa using hi
  refine ⟨rs, st2, hrun, ?_, ?_⟩
  · have habs := abs_miss_ids (maps.map key) []
    have hfm : rs.filterMap ImageCacheResponse.miss_id
        = (rs.map respSummary).filterMap
            (fun s => if s.1 then some s.2 else none) := by
      rw [List.filterMap_map]
      congr 1
      funext r
      cases r <;> rfl
    have hcp : (rs.map respSummary).countP (·.1)
        = rs.countP ImageCacheResponse.is_miss := by
      rw [List.countP_map]
      congr 1
      funext r
      cases r <;> rfl
    rw [hfm, hsum, habs, ← hsum, hcp]
    simp [List.range_eq_range']
  · intro i j hi hj hideq
    have h1 := (hidx i (hmaplen i hi)).1
    have h2 := (hidx j (hmaplen j hj)).1
    rw [hksnth i, hsumnth i, respSummary_snd] at h1
    rw [hksnth j, hsumnth j, respSummary_snd] at h2
    rw [hideq] at h1
    exact idxOf?_inj h1 h2

theorem logical_ids_monotone_witness :
    ∃ rs st2, runLoads okLoader mapsW ImageCache.new = (.ok rs, st2) ∧
      rs.filterMap ImageCacheResponse.miss_id
        = List.range (rs.countP ImageCacheResponse.is_miss) ∧
      (∀ i j, i < mapsW.length → j < mapsW.length →
        (nth respD rs i).resp_id = (nth respD rs j).resp_id →
        key (nth mapD mapsW i) = key (nth mapD mapsW j)) :=
  logical_ids_monotone okLoader mapsW (fun p => ⟨okImage, rfl⟩) (by decide)

/-- C6: a placeholder key and an asset-path key never collide: in any successful
run they receive distinct logical ids and occupy separate cache entries — the
placeholder constant in `placeholder_images` and the path in `loaded_images`. -/
theorem placeholder_asset_no_collision (loader : Loader)
    (maps : List MeshMaterialMap) (i j : Nat) (c : Rgba) (p : String) (q : Nat)
    (hok : ∀ pa, ∃ img, loader pa = Except.ok img)
    (hmax : maps.length ≤ USIZE_MAX)
    (hi : i < maps.length) (hj : j < maps.length)
    (hpi : nth mapD maps i = .Placeholder c)
    (haj : nth mapD maps j = .Asset p q) :
    ∃ rs st2, runLoads loader maps ImageCache.new = (.ok rs, st2) ∧
      (nth respD rs i).resp_id ≠ (nth respD rs j).resp_id ∧
      hashGet? c st2.placeholder_images = some ((nth respD rs i).resp_id) ∧
      (hashGet? p st2.loaded_images).map CachedImage.id
        = some ((nth respD rs j).resp_id) := by
  obtain ⟨rs, st2, hrun, hsim2, hsum⟩ := run_fresh loader maps hok hmax
  obtain ⟨hlen, ⟨t, ht⟩, hnd, hidx⟩ := abs_spec (maps.map key) [] List.nodup_nil
  have hsumnth : ∀ i2, nth sumD (absRun (maps.map key) []).1 i2
      = respSummary (nth respD rs i2) := by
    intro i2
    rw [← hsum]
    exact nth_map respSummary rs i2 respD
  have hksnth : ∀ i2, nth keyD (maps.map key) i2 = key (nth mapD maps i2) :=
    fun i2 => nth_map key maps i2 mapD
  have hmaplen : ∀ i2, i2 < maps.length → i2 < (maps.map key).length := by
    intro i2 hi2
    simpa using hi2
  have h1 := (hidx i (hmaplen i hi)).1
  have h2 := (hidx j (hmaplen j hj)).1
  rw [hksnth i, hsumnth i, respSummary_snd, hpi] at h1
  rw [hksnth j, hsumnth j, respSummary_snd, haj] at h2
  have hkc : key (.Placeholder c) = ResourceKey.placeholderColor c := rfl
  have hkp : key (.Asset p q) = ResourceKey.assetPath p := rfl
  rw [hkc] at h1
  rw [hkp] at h2
  refine ⟨rs, st2, hrun, ?_, ?_, ?_⟩
  · intro heq
    rw [heq] at h1
    have := idxOf?_inj h1 h2
    cases this
  · have he1 := hsim2.2 (ResourceKey.placeholderColor c)
    have := he1.trans h1
    simpa [idOf] using this
  · have he2 := hsim2.2 (ResourceKey.assetPath p)
    have := he2.trans h2
    simpa [idOf] using this

theorem placeholder_asset_no_collision_witness :
    ∃ rs st2, runLoads okLoader mapsW ImageCache.new = (.ok rs, st2) ∧
      (nth respD rs 0).resp_id ≠ (nth respD rs 1).resp_id ∧
      hashGet? (⟨255, 0, 0, 255⟩ : Rgba) st2.placeholder_images
        = some ((nth respD rs 0).resp_id) ∧
      (hashGet? "assets/a.png" st2.loaded_images).map CachedImage.id
        = some ((nth respD rs 1).resp_id) :=
  placeholder_asset_no_collision okLoader mapsW 0 1 ⟨255, 0, 0, 255⟩
    "assets/a.png" 0 (fun pa => ⟨okImage, rfl⟩) (by decide) (by decide)
    (by decide) rfl rfl

end Vicki
